import Mathlib

/-! Shallow embedding of the bounding-box logic of `src/app/components/Map.tsx`
from the bboxy repository.  Geographic coordinates are modelled as rationals
and JavaScript strings as lists of characters; the component state, the URL
fragment and the overlay data are explicit values threaded through the event
handlers. -/

/-- Little-endian base-10 digits of a natural number, with explicit fuel so
the definition is structurally recursive; the fuel is always instantiated
with the number itself, which bounds the digit count. -/
def digitsLE : ℕ → ℕ → List ℕ
  | 0, _ => []
  | fuel + 1, n => if n = 0 then [] else n % 10 :: digitsLE fuel (n / 10)

/-- Little-endian base-10 digits of a natural number (empty for 0). -/
def natDigits (n : ℕ) : List ℕ := digitsLE n n

/-- Value of a little-endian digit list. -/
def digitsVal : List ℕ → ℕ
  | [] => 0
  | d :: ds => d + 10 * digitsVal ds

/-- Character for a decimal digit value. -/
def digitChar10 (d : ℕ) : Char := Char.ofNat (48 + d)

/-- Test for an ASCII decimal digit, as a decimal numeral parser uses it. -/
def isDigitChar (c : Char) : Bool := 48 ≤ c.toNat && c.toNat ≤ 57

/-- Numeric value of an ASCII decimal digit character. -/
def charDigitVal (c : Char) : ℕ := c.toNat - 48

/-- Decimal numeral (big-endian characters) of a natural number, as
JavaScript prints one: 0 prints as the single digit 0, other numbers print
without leading zeros. -/
def renderNat (n : ℕ) : List Char :=
  if n = 0 then ['0'] else ((natDigits n).reverse).map digitChar10

/-- Fractional digit characters of a 6-decimal value: leading zeros kept,
trailing zeros stripped, as `Intl.NumberFormat` with six maximum fraction
digits prints them.  The input is the fractional numerator `f`, assumed to
satisfy `0 < f < 10^6`. -/
def fracChars (f : ℕ) : List Char :=
  (((natDigits f ++ List.replicate (6 - (natDigits f).length) 0).dropWhile
    (fun d => d == 0)).reverse).map digitChar10

/-- Decimal numeral of the rational `m / 10^6`, with up to six fractional
digits and trailing zeros stripped; this is the shape `Intl.NumberFormat`
(`en-US`, no grouping, six maximum fraction digits) emits. -/
def renderScaled (m : ℤ) : List Char :=
  (if m < 0 then ['-'] else []) ++
    renderNat (m.natAbs / 10 ^ 6) ++
    (if m.natAbs % 10 ^ 6 = 0 then [] else '.' :: fracChars (m.natAbs % 10 ^ 6))

/-- Floor of a rational number, written as the quotient of its numerator by
its denominator so that the kernel can evaluate it; the denominator is
positive, and integer division by a positive number floors. -/
def qfloor (q : ℚ) : ℤ := q.num / q.den

/-- Rounding to the nearest integer with ties away from zero, the default
rounding mode of `Intl.NumberFormat`. -/
def roundHalfAway (x : ℚ) : ℤ :=
  if x < 0 then -qfloor (-x + 1 / 2) else qfloor (x + 1 / 2)

/-- Rounding a rational to six decimal places, ties away from zero. -/
def round6 (q : ℚ) : ℚ := (roundHalfAway (q * 10 ^ 6) : ℚ) / 10 ^ 6

/-- Model of `formatCoordinate` (Map.tsx, lines 72-78): format a coordinate
with up to 6 decimal places, no trailing zeros and no grouping, which prints
exactly the 6-decimal rounding of the number. -/
def formatCoordinate (coord : ℚ) : List Char :=
  renderScaled (roundHalfAway (coord * 10 ^ 6))

/-- Model of the `BoundingBox` interface (Map.tsx, lines 27-30).  The field
named `end` in the source is called `end_` here because `end` is reserved. -/
structure BoundingBox where
  start : Option (ℚ × ℚ)
  end_ : Option (ℚ × ℚ)
  deriving DecidableEq

/-- Coordinate order accepted by `formatBoundingBox`. -/
inductive CoordOrder where
  | latLon
  | lonLat
  deriving DecidableEq

/-- Options of `formatBoundingBox` with the defaults from the source: the
separator is a comma and the order is longitude-then-latitude. -/
structure FormatOptions where
  separator : List Char := [',']
  order : CoordOrder := CoordOrder.lonLat

/-- Model of `formatBoundingBox` (Map.tsx, lines 81-122): normalize the two
corners to southwest and northeast and join the formatted coordinates with
the separator; the empty string is returned when either corner is missing. -/
def formatBoundingBox (start stop : Option (ℚ × ℚ))
    (options : FormatOptions) : List Char :=
  match start, stop with
  | some (lon1, lat1), some (lon2, lat2) =>
    let minLon := min lon1 lon2
    let minLat := min lat1 lat2
    let maxLon := max lon1 lon2
    let maxLat := max lat1 lat2
    if options.order = CoordOrder.lonLat then
      List.intercalate options.separator
        [formatCoordinate minLon, formatCoordinate minLat,
          formatCoordinate maxLon, formatCoordinate maxLat]
    else
      List.intercalate options.separator
        [formatCoordinate minLat, formatCoordinate minLon,
          formatCoordinate maxLat, formatCoordinate maxLon]
  | _, _ => []

/-- Value of a big-endian list of decimal digit characters; 0 when the list
is empty, matching JavaScript where a missing integer or fraction part of a
numeral counts as 0. -/
def parseNatChars (cs : List Char) : ℕ :=
  digitsVal ((cs.map charDigitVal).reverse)

/-- Unsigned decimal numeral for the `Number` model: digits with an optional
decimal point, where at least one digit must appear on some side of the
point; anything else is rejected. -/
def parseUnsigned (cs : List Char) : Option ℚ :=
  match cs.span isDigitChar with
  | (intPart, []) =>
    if intPart = [] then none else some (parseNatChars intPart : ℚ)
  | (intPart, c :: fracPart) =>
    if c = '.' ∧ fracPart.all isDigitChar = true ∧
        (intPart ≠ [] ∨ fracPart ≠ []) then
      some ((parseNatChars intPart : ℚ) +
        (parseNatChars fracPart : ℚ) / 10 ^ fracPart.length)
    else none

/-- Signed decimal numeral: an optional leading sign before an unsigned
numeral. -/
def parseSigned : List Char → Option ℚ
  | [] => none
  | c :: cs =>
    if c = '-' then (parseUnsigned cs).map (fun q => -q)
    else if c = '+' then parseUnsigned cs
    else parseUnsigned (c :: cs)

/-- Model of the JavaScript `Number` conversion restricted to decimal
numerals: the empty string converts to 0, an optionally signed decimal
numeral converts to its value, and everything else (including, in this
model, hexadecimal, exponent and `Infinity` forms) is NaN, represented by
`none`. -/
def jsNumber (cs : List Char) : Option ℚ :=
  if cs = [] then some 0 else parseSigned cs

/-- Prepend a character to the first group of a split result. -/
def consHead (c : Char) : List (List Char) → List (List Char)
  | [] => [[c]]
  | g :: gs => (c :: g) :: gs

/-- Model of the JavaScript `split` with a comma separator: the comma-free
groups of the string, one more group than there are commas. -/
def splitComma : List Char → List (List Char)
  | [] => [[]]
  | c :: cs =>
    if c = ',' then [] :: splitComma cs else consHead c (splitComma cs)

/-- Model of the parsing step of `handleHashChange` (Map.tsx, lines 46-60):
split the fragment on commas, convert each part with `Number`, and take the
first four values when all four exist and are numbers; a missing part, like
a NaN one, fails the `isNaN` checks. -/
def parseHash (hash : List Char) : Option (ℚ × ℚ × ℚ × ℚ) :=
  let parts := (splitComma hash).map jsNumber
  match parts[0]?, parts[1]?, parts[2]?, parts[3]? with
  | some (some lon1), some (some lat1), some (some lon2), some (some lat2) =>
    some (lon1, lat1, lon2, lat2)
  | _, _, _, _ => none

/-- The two pointer tools of the page. -/
inductive Tool where
  | hand
  | rectangle
  deriving DecidableEq

/-- The two base map styles. -/
inductive MapStyle where
  | streets
  | satellite
  deriving DecidableEq

/-- The component state of `Map` (Map.tsx, lines 35-42) together with the
URL fragment the component reads and writes (`window.location.hash` without
its leading hash mark). -/
structure MapState where
  activeTool : Tool
  boundingBox : BoundingBox
  isDrawing : Bool
  fitToBoundsNextRender : Bool
  mapStyle : MapStyle
  urlHash : List Char
  deriving DecidableEq

/-- Model of `updateURL` (Map.tsx, lines 125-135): the non-reloading history
update replaces the URL fragment with the formatted bounding box. -/
def updateURL (start stop : Option (ℚ × ℚ)) (s : MapState) : MapState :=
  { s with urlHash := formatBoundingBox start stop {} }

/-- Model of `handleMouseDown` (Map.tsx, lines 137-150). -/
def handleMouseDown (lngLat : ℚ × ℚ) (s : MapState) : MapState :=
  if s.activeTool ≠ Tool.rectangle then s
  else
    { s with
      boundingBox := { start := some lngLat, end_ := none }
      isDrawing := true }

/-- Model of `handleMouseMove` (Map.tsx, lines 152-164). -/
def handleMouseMove (lngLat : ℚ × ℚ) (s : MapState) : MapState :=
  if s.activeTool ≠ Tool.rectangle ∨ s.isDrawing = false ∨
      s.boundingBox.start = none then s
  else { s with boundingBox := { s.boundingBox with end_ := some lngLat } }

/-- Model of `handleMouseUp` (Map.tsx, lines 166-200): finish the drag,
resetting the box and clearing the fragment when the released point equals
the start componentwise, otherwise keeping the corners, writing the
formatted box to the fragment and requesting a fit to bounds; either way
drawing stops and the active tool returns to the hand. -/
def handleMouseUp (lngLat : ℚ × ℚ) (s : MapState) : MapState :=
  if s.activeTool ≠ Tool.rectangle ∨ s.isDrawing = false ∨
      s.boundingBox.start = none then s
  else
    match s.boundingBox.start with
    | none => s
    | some st =>
      if st.1 = lngLat.1 ∧ st.2 = lngLat.2 then
        updateURL none none
          { s with
            boundingBox := { start := none, end_ := none }
            isDrawing := false
            activeTool := Tool.hand }
      else
        let s2 := updateURL (some st) (some lngLat)
          { s with
            boundingBox := { start := some st, end_ := some lngLat }
            isDrawing := false
            activeTool := Tool.hand }
        { s2 with fitToBoundsNextRender := true }

/-- Model of `handleHashChange` (Map.tsx, lines 46-60), taking the current
fragment (without its hash mark) as input: a nonempty fragment that parses
as four numbers replaces the box corners in fragment order and requests a
fit to bounds; an empty or malformed fragment changes nothing. -/
def handleHashChange (hash : List Char) (s : MapState) : MapState :=
  if hash = [] then s
  else
    match parseHash hash with
    | some (lon1, lat1, lon2, lat2) =>
      { s with
        boundingBox := { start := some (lon1, lat1), end_ := some (lon2, lat2) }
        fitToBoundsNextRender := true }
    | none => s

/-- Overlay data handed to the map source: either an empty feature
collection or a single polygon with the given ring. -/
inductive OverlayData where
  | emptyCollection
  | polygon (ring : List (ℚ × ℚ))
  deriving DecidableEq

/-- Model of `renderBoundingBox` (Map.tsx, lines 203-276): with both corners
present the overlay is the closed quadrilateral traced through the two raw
corners and the two mixed corners; otherwise the overlay source data is set
to an empty feature collection. -/
def renderBoundingBox (box : BoundingBox) : OverlayData :=
  match box.start, box.end_ with
  | some (lon1, lat1), some (lon2, lat2) =>
    OverlayData.polygon
      [(lon1, lat1), (lon2, lat1), (lon2, lat2), (lon1, lat2), (lon1, lat1)]
  | _, _ => OverlayData.emptyCollection

/-- Model of `fitToBoundsIfRequested` (Map.tsx, lines 317-342): when the
one-shot flag is set and both corners exist, emit the southwest/northeast
bounds of the `fitBounds` command and clear the flag; the map handle is
taken to be present. -/
def fitToBoundsIfRequested (s : MapState) :
    Option ((ℚ × ℚ) × (ℚ × ℚ)) × MapState :=
  match s.fitToBoundsNextRender, s.boundingBox.start, s.boundingBox.end_ with
  | true, some st, some en =>
    (some ((min st.1 en.1, min st.2 en.2), (max st.1 en.1, max st.2 en.2)),
      { s with fitToBoundsNextRender := false })
  | _, _, _ => (none, s)

/-- A concrete idle component state used to instantiate the theorems: hand
tool, empty box, not drawing, no pending fit, empty fragment. -/
def sampleState : MapState :=
  { activeTool := Tool.hand, boundingBox := { start := none, end_ := none },
    isDrawing := false, fitToBoundsNextRender := false,
    mapStyle := MapStyle.streets, urlHash := [] }

/-- A concrete state in the middle of a drag that started at (1, 2). -/
def drawState : MapState :=
  { activeTool := Tool.rectangle,
    boundingBox := { start := some (1, 2), end_ := none },
    isDrawing := true, fitToBoundsNextRender := false,
    mapStyle := MapStyle.streets, urlHash := [] }

/-- A concrete state in the middle of a drag that started at (151, -33). -/
def sydneyDragState : MapState :=
  { activeTool := Tool.rectangle,
    boundingBox := { start := some (151, -33), end_ := none },
    isDrawing := true, fitToBoundsNextRender := false,
    mapStyle := MapStyle.streets, urlHash := [] }

/-- A concrete state that is drawing while the hand tool is active; it is
reachable by pressing the h key in the middle of a rectangle drag, since the
keyboard handler switches the tool without touching `isDrawing`. -/
def handDrawingState : MapState :=
  { activeTool := Tool.hand,
    boundingBox := { start := some (0, 0), end_ := none },
    isDrawing := true, fitToBoundsNextRender := false,
    mapStyle := MapStyle.streets, urlHash := [] }

/-- The same drawing state with the rectangle tool active. -/
def rectDrawingState : MapState :=
  { handDrawingState with activeTool := Tool.rectangle }

/-- The characters of the malformed fragment `abc,1,2,3`. -/
def malformedHash : List Char := ['a', 'b', 'c', ',', '1', ',', '2', ',', '3']

/-- The characters of the fragment `-10,20,-5,25`. -/
def exampleHash : List Char :=
  ['-', '1', '0', ',', '2', '0', ',', '-', '5', ',', '2', '5']

/-! Arithmetic facts about the digit functions. -/

theorem digitsVal_digitsLE (fuel : ℕ) :
    ∀ n : ℕ, n ≤ fuel → digitsVal (digitsLE fuel n) = n := by
  induction fuel with
  | zero =>
    intro n hn
    interval_cases n
    simp [digitsLE, digitsVal]
  | succ fuel ih =>
    intro n hn
    by_cases h0 : n = 0
    · simp [digitsLE, h0, digitsVal]
    · rw [digitsLE, if_neg h0, digitsVal, ih (n / 10) (by omega)]
      omega

theorem digitsVal_natDigits (n : ℕ) : digitsVal (natDigits n) = n :=
  digitsVal_digitsLE n n le_rfl

theorem digitsLE_lt (fuel : ℕ) :
    ∀ n : ℕ, ∀ d ∈ digitsLE fuel n, d < 10 := by
  induction fuel with
  | zero => intro n d hd; simp [digitsLE] at hd
  | succ fuel ih =>
    intro n d hd
    by_cases h0 : n = 0
    · simp [digitsLE, h0] at hd
    · rw [digitsLE, if_neg h0] at hd
      rcases List.mem_cons.mp hd with h | h
      · omega
      · exact ih (n / 10) d h

theorem natDigits_lt (n : ℕ) : ∀ d ∈ natDigits n, d < 10 :=
  digitsLE_lt n n

theorem digitsLE_length (fuel : ℕ) :
    ∀ n k : ℕ, n < 10 ^ k → (digitsLE fuel n).length ≤ k := by
  induction fuel with
  | zero => intro n k _; simp [digitsLE]
  | succ fuel ih =>
    intro n k hn
    by_cases h0 : n = 0
    · simp [digitsLE, h0]
    · rw [digitsLE, if_neg h0]
      cases k with
      | zero =>
        exact absurd (by omega : n = 0) h0
      | succ k =>
        have hdiv : n / 10 < 10 ^ k := by
          rw [Nat.div_lt_iff_lt_mul (by norm_num)]
          calc n < 10 ^ (k + 1) := hn
            _ = 10 ^ k * 10 := by ring
        simpa using ih (n / 10) k hdiv

theorem natDigits_length (n k : ℕ) (hn : n < 10 ^ k) :
    (natDigits n).length ≤ k :=
  digitsLE_length n n k hn

theorem natDigits_ne_nil (n : ℕ) (hn : n ≠ 0) : natDigits n ≠ [] := by
  unfold natDigits
  cases n with
  | zero => exact absurd rfl hn
  | succ m => rw [digitsLE, if_neg hn]; exact List.cons_ne_nil _ _

theorem digitsVal_append (xs ys : List ℕ) :
    digitsVal (xs ++ ys) = digitsVal xs + 10 ^ xs.length * digitsVal ys := by
  induction xs with
  | nil => simp [digitsVal]
  | cons d ds ih => simp [digitsVal, ih]; ring

theorem digitsVal_all_zero (ds : List ℕ) (h : ∀ d ∈ ds, d = 0) :
    digitsVal ds = 0 := by
  induction ds with
  | nil => rfl
  | cons d ds ih =>
    rw [digitsVal, h d (List.mem_cons_self d ds),
      ih fun x hx => h x (List.mem_cons_of_mem d hx)]

theorem charDigitVal_digitChar10 : ∀ d < 10, charDigitVal (digitChar10 d) = d := by
  decide

theorem isDigitChar_digitChar10 : ∀ d < 10, isDigitChar (digitChar10 d) = true := by
  decide

theorem digitChar10_ne_special :
    ∀ d < 10, digitChar10 d ≠ ',' ∧ digitChar10 d ≠ '.' ∧
      digitChar10 d ≠ '-' ∧ digitChar10 d ≠ '+' := by
  decide

theorem parseNatChars_map_digitChar10 (ds : List ℕ) (h : ∀ d ∈ ds, d < 10) :
    parseNatChars ((ds.reverse).map digitChar10) = digitsVal ds := by
  unfold parseNatChars
  rw [List.map_map]
  have hmap : (ds.reverse).map (charDigitVal ∘ digitChar10) = ds.reverse := by
    have hid : (ds.reverse).map (charDigitVal ∘ digitChar10) = (ds.reverse).map id :=
      List.map_congr_left fun d hd =>
        charDigitVal_digitChar10 d (h d (List.mem_reverse.mp hd))
    rw [hid, List.map_id]
  rw [hmap, List.reverse_reverse]

/-! Facts about the rendered numerals. -/

theorem renderNat_ne_nil (n : ℕ) : renderNat n ≠ [] := by
  unfold renderNat
  split
  · simp
  · rename_i h0
    simp only [ne_eq, List.map_eq_nil_iff, List.reverse_eq_nil_iff]
    exact natDigits_ne_nil n h0

theorem renderNat_all_digit (n : ℕ) :
    ∀ c ∈ renderNat n, isDigitChar c = true := by
  unfold renderNat
  split
  · intro c hc
    rw [List.mem_singleton] at hc
    subst hc
    decide
  · intro c hc
    rw [List.mem_map] at hc
    obtain ⟨d, hd, rfl⟩ := hc
    exact isDigitChar_digitChar10 d (natDigits_lt n d (List.mem_reverse.mp hd))

theorem parseNatChars_renderNat (n : ℕ) : parseNatChars (renderNat n) = n := by
  unfold renderNat
  split
  · rename_i h0
    rw [h0]
    decide
  · rw [parseNatChars_map_digitChar10 _ (natDigits_lt n), digitsVal_natDigits]

theorem fracChars_spec (f : ℕ) (h1 : 0 < f) (h2 : f < 10 ^ 6) :
    fracChars f ≠ [] ∧ (∀ c ∈ fracChars f, isDigitChar c = true) ∧
      (parseNatChars (fracChars f) : ℚ) / 10 ^ (fracChars f).length =
        (f : ℚ) / 10 ^ 6 := by
  set P : List ℕ := natDigits f ++ List.replicate (6 - (natDigits f).length) 0
    with hP
  set D : List ℕ := P.dropWhile (fun d => d == 0) with hD
  have hlen6 : (natDigits f).length ≤ 6 := natDigits_length f 6 h2
  have hPlen : P.length = 6 := by
    rw [hP, List.length_append, List.length_replicate]
    omega
  have hPval : digitsVal P = f := by
    rw [hP, digitsVal_append, digitsVal_all_zero _
      (fun d hd => List.eq_of_mem_replicate hd), digitsVal_natDigits]
    ring
  have hPdig : ∀ d ∈ P, d < 10 := by
    intro d hd
    rw [hP, List.mem_append] at hd
    rcases hd with h | h
    · exact natDigits_lt f d h
    · rw [List.eq_of_mem_replicate h]; norm_num
  have hTD : P.takeWhile (fun d => d == 0) ++ D = P := by
    rw [hD]
    exact List.takeWhile_append_dropWhile _ _
  have hTzero : digitsVal (P.takeWhile (fun d => d == 0)) = 0 := by
    apply digitsVal_all_zero
    intro d hd
    have := List.mem_takeWhile_imp hd
    simpa using this
  have hfD : f = 10 ^ (P.takeWhile (fun d => d == 0)).length * digitsVal D := by
    have := congrArg digitsVal hTD
    rw [digitsVal_append, hTzero, hPval] at this
    omega
  have hDdig : ∀ d ∈ D, d < 10 := fun d hd =>
    hPdig d ((List.dropWhile_sublist _).subset hd)
  have hDne : D ≠ [] := by
    intro hnil
    rw [hnil, digitsVal] at hfD
    omega
  have hsplit : (P.takeWhile (fun d => d == 0)).length + D.length = 6 := by
    have := congrArg List.length hTD
    rw [List.length_append, hPlen] at this
    omega
  have hfc : fracChars f = (D.reverse).map digitChar10 := rfl
  refine ⟨?_, ?_, ?_⟩
  · rw [hfc]
    simp only [ne_eq, List.map_eq_nil_iff, List.reverse_eq_nil_iff]
    exact hDne
  · intro c hc
    rw [hfc, List.mem_map] at hc
    obtain ⟨d, hd, rfl⟩ := hc
    exact isDigitChar_digitChar10 d (hDdig d (List.mem_reverse.mp hd))
  · rw [hfc, parseNatChars_map_digitChar10 _ hDdig]
    have hlenfc : ((D.reverse).map digitChar10).length = D.length := by
      rw [List.length_map, List.length_reverse]
    rw [hlenfc]
    have h10 : (0 : ℚ) < 10 := by norm_num
    rw [div_eq_div_iff (by positivity) (by positivity)]
    have : (f : ℚ) = 10 ^ (P.takeWhile (fun d => d == 0)).length * digitsVal D := by
      rw [hfD]; push_cast; ring
    rw [this, ← hsplit]
    ring

/-! The parser recovers what the renderer prints. -/

theorem takeWhile_all_append {α} (p : α → Bool) (A B : List α)
    (hA : ∀ a ∈ A, p a = true) :
    (A ++ B).takeWhile p = A ++ B.takeWhile p := by
  induction A with
  | nil => simp
  | cons a A ih =>
    have ha := hA a (List.mem_cons_self a A)
    simp [List.takeWhile_cons, ha,
      ih fun x hx => hA x (List.mem_cons_of_mem a hx)]

theorem dropWhile_all_append {α} (p : α → Bool) (A B : List α)
    (hA : ∀ a ∈ A, p a = true) :
    (A ++ B).dropWhile p = B.dropWhile p := by
  induction A with
  | nil => simp
  | cons a A ih =>
    rw [List.cons_append, List.dropWhile_cons_of_pos (hA a (List.mem_cons_self a A)),
      ih fun x hx => hA x (List.mem_cons_of_mem a hx)]

theorem span_all_digits (cs : List Char) (h : ∀ c ∈ cs, isDigitChar c = true) :
    cs.span isDigitChar = (cs, []) := by
  rw [List.span_eq_take_drop]
  have h1 : cs.takeWhile isDigitChar = cs := by
    have := takeWhile_all_append isDigitChar cs [] h
    simpa using this
  have h2 : cs.dropWhile isDigitChar = [] := by
    have := dropWhile_all_append isDigitChar cs [] h
    simpa using this
  rw [h1, h2]

theorem span_digits_dot (A B : List Char) (hA : ∀ c ∈ A, isDigitChar c = true) :
    (A ++ '.' :: B).span isDigitChar = (A, '.' :: B) := by
  rw [List.span_eq_take_drop]
  have h1 : (A ++ '.' :: B).takeWhile isDigitChar = A := by
    rw [takeWhile_all_append isDigitChar A _ hA,
      List.takeWhile_cons_of_neg (by decide), List.append_nil]
  have h2 : (A ++ '.' :: B).dropWhile isDigitChar = '.' :: B := by
    rw [dropWhile_all_append isDigitChar A _ hA,
      List.dropWhile_cons_of_neg (by decide)]
  rw [h1, h2]

theorem parseUnsigned_digits (cs : List Char) (hne : cs ≠ [])
    (h : ∀ c ∈ cs, isDigitChar c = true) :
    parseUnsigned cs = some (parseNatChars cs : ℚ) := by
  unfold parseUnsigned
  rw [span_all_digits cs h]
  simp [hne]

theorem parseUnsigned_int_frac (A B : List Char)
    (hAdig : ∀ c ∈ A, isDigitChar c = true) (hAne : A ≠ [])
    (hBdig : ∀ c ∈ B, isDigitChar c = true) :
    parseUnsigned (A ++ '.' :: B) =
      some ((parseNatChars A : ℚ) + (parseNatChars B : ℚ) / 10 ^ B.length) := by
  unfold parseUnsigned
  rw [span_digits_dot A B hAdig]
  have hall : B.all isDigitChar = true := List.all_eq_true.mpr hBdig
  simp [hall, hAne]

theorem parseSigned_head_digit (c : Char) (cs : List Char)
    (hc : isDigitChar c = true) :
    parseSigned (c :: cs) = parseUnsigned (c :: cs) := by
  have h1 : ¬c = '-' := by
    intro h
    rw [h] at hc
    exact absurd hc (by decide)
  have h2 : ¬c = '+' := by
    intro h
    rw [h] at hc
    exact absurd hc (by decide)
  simp only [parseSigned, if_neg h1, if_neg h2]

theorem parseUnsigned_renderPos (n : ℕ) :
    parseUnsigned (renderNat (n / 10 ^ 6) ++
      (if n % 10 ^ 6 = 0 then [] else '.' :: fracChars (n % 10 ^ 6))) =
      some ((n : ℚ) / 10 ^ 6) := by
  by_cases hf : n % 10 ^ 6 = 0
  · rw [if_pos hf, List.append_nil,
      parseUnsigned_digits _ (renderNat_ne_nil _) (renderNat_all_digit _),
      parseNatChars_renderNat]
    congr 1
    obtain ⟨k, hk⟩ := Nat.dvd_of_mod_eq_zero hf
    subst hk
    rw [Nat.mul_div_cancel_left k (by norm_num)]
    push_cast
    field_simp
    ring
  · rw [if_neg hf]
    obtain ⟨hne, hdig, hval⟩ := fracChars_spec (n % 10 ^ 6)
      (Nat.pos_of_ne_zero hf) (Nat.mod_lt n (by norm_num))
    rw [parseUnsigned_int_frac _ _ (renderNat_all_digit _) (renderNat_ne_nil _) hdig,
      parseNatChars_renderNat, hval]
    congr 1
    have key : (10 : ℚ) ^ 6 * ((n / 10 ^ 6 : ℕ) : ℚ) + ((n % 10 ^ 6 : ℕ) : ℚ) = (n : ℚ) := by
      exact_mod_cast congrArg (Nat.cast : ℕ → ℚ) (Nat.div_add_mod n (10 ^ 6))
    field_simp
    linarith [key]

theorem jsNumber_renderScaled (m : ℤ) :
    jsNumber (renderScaled m) = some ((m : ℚ) / 10 ^ 6) := by
  unfold jsNumber renderScaled
  by_cases hm : m < 0
  · rw [if_pos hm]
    simp only [List.cons_append, List.nil_append]
    rw [if_neg (List.cons_ne_nil _ _)]
    have hps : parseSigned ('-' :: (renderNat (m.natAbs / 10 ^ 6) ++
        (if m.natAbs % 10 ^ 6 = 0 then []
          else '.' :: fracChars (m.natAbs % 10 ^ 6)))) =
        (parseUnsigned (renderNat (m.natAbs / 10 ^ 6) ++
          (if m.natAbs % 10 ^ 6 = 0 then []
            else '.' :: fracChars (m.natAbs % 10 ^ 6)))).map (fun q => -q) := by
      simp [parseSigned]
    rw [hps, parseUnsigned_renderPos m.natAbs, Option.map_some']
    congr 1
    rw [Int.cast_natAbs, abs_of_neg hm]
    push_cast
    ring
  · rw [if_neg hm, List.nil_append]
    obtain ⟨c, cs0, hc⟩ :=
      List.exists_cons_of_ne_nil (renderNat_ne_nil (m.natAbs / 10 ^ 6))
    have hdigc : isDigitChar c = true := by
      apply renderNat_all_digit
      rw [hc]
      exact List.mem_cons_self _ _
    rw [hc, List.cons_append, if_neg (List.cons_ne_nil _ _),
      parseSigned_head_digit c _ hdigc, ← List.cons_append, ← hc,
      parseUnsigned_renderPos m.natAbs]
    congr 1
    rw [Int.cast_natAbs, abs_of_nonneg (not_lt.mp hm)]

theorem jsNumber_formatCoordinate (q : ℚ) :
    jsNumber (formatCoordinate q) = some (round6 q) := by
  unfold formatCoordinate round6
  exact jsNumber_renderScaled _

/-! Formatted coordinates contain no comma, so the split recovers them. -/

theorem comma_not_mem_renderScaled (m : ℤ) : ',' ∉ renderScaled m := by
  unfold renderScaled
  intro hmem
  rcases List.mem_append.mp hmem with h12 | h3
  · rcases List.mem_append.mp h12 with h1 | h2
    · revert h1
      split
      · intro h1
        rw [List.mem_singleton] at h1
        exact absurd h1 (by decide)
      · intro h1
        exact absurd h1 (List.not_mem_nil _)
    · exact absurd (renderNat_all_digit _ _ h2) (by decide)
  · revert h3
    split
    · intro h3
      exact absurd h3 (List.not_mem_nil _)
    · rename_i hne0
      intro h3
      rcases List.mem_cons.mp h3 with h | h
      · exact absurd h (by decide)
      · obtain ⟨-, hdig, -⟩ := fracChars_spec (m.natAbs % 10 ^ 6)
          (Nat.pos_of_ne_zero hne0) (Nat.mod_lt _ (by norm_num))
        exact absurd (hdig _ h) (by decide)

theorem comma_not_mem_formatCoordinate (q : ℚ) : ',' ∉ formatCoordinate q :=
  comma_not_mem_renderScaled _

theorem splitComma_append (A B : List Char) (hA : ',' ∉ A) :
    splitComma (A ++ ',' :: B) = A :: splitComma B := by
  induction A with
  | nil => simp [splitComma]
  | cons c A ih =>
    have hc : ¬c = ',' := by
      intro h
      exact hA (by rw [h]; exact List.mem_cons_self _ _)
    rw [List.cons_append]
    simp only [splitComma, if_neg hc,
      ih fun hx => hA (List.mem_cons_of_mem c hx)]
    rfl

theorem splitComma_no_comma (A : List Char) (hA : ',' ∉ A) :
    splitComma A = [A] := by
  induction A with
  | nil => rfl
  | cons c A ih =>
    have hc : ¬c = ',' := by
      intro h
      exact hA (by rw [h]; exact List.mem_cons_self _ _)
    simp only [splitComma, if_neg hc,
      ih fun hx => hA (List.mem_cons_of_mem c hx)]
    rfl

theorem intercalate_comma_four (a b c d : List Char) :
    List.intercalate [','] [a, b, c, d] =
      a ++ ',' :: (b ++ ',' :: (c ++ ',' :: d)) := by
  simp [List.intercalate]

theorem parseHash_quad (a b c d : List Char)
    (ha : ',' ∉ a) (hb : ',' ∉ b) (hc : ',' ∉ c) (hd : ',' ∉ d)
    (x y z w : ℚ)
    (hja : jsNumber a = some x) (hjb : jsNumber b = some y)
    (hjc : jsNumber c = some z) (hjd : jsNumber d = some w) :
    parseHash (a ++ ',' :: (b ++ ',' :: (c ++ ',' :: d))) = some (x, y, z, w) := by
  unfold parseHash
  rw [splitComma_append a _ ha, splitComma_append b _ hb, splitComma_append c _ hc,
    splitComma_no_comma d hd]
  simp [hja, hjb, hjc, hjd]

/-! The 6-decimal rounding is monotone, so it maps the normalized corner
order to the normalized corner order. -/

theorem qfloor_eq_floor (q : ℚ) : qfloor q = ⌊q⌋ := Rat.floor_def.symm

theorem roundHalfAway_mono {x y : ℚ} (h : x ≤ y) :
    roundHalfAway x ≤ roundHalfAway y := by
  unfold roundHalfAway
  simp only [qfloor_eq_floor]
  split_ifs with h1 h2 h2
  · exact neg_le_neg (Int.floor_le_floor (by linarith))
  · have l1 : 0 ≤ ⌊y + 1 / 2⌋ := Int.floor_nonneg.mpr (by linarith)
    have l2 : 0 ≤ ⌊-x + 1 / 2⌋ := Int.floor_nonneg.mpr (by linarith)
    omega
  · exact absurd (lt_of_le_of_lt h h2) h1
  · exact Int.floor_le_floor (by linarith)

theorem round6_mono {x y : ℚ} (h : x ≤ y) : round6 x ≤ round6 y := by
  unfold round6
  have h1 : roundHalfAway (x * 10 ^ 6) ≤ roundHalfAway (y * 10 ^ 6) :=
    roundHalfAway_mono (mul_le_mul_of_nonneg_right h (by norm_num))
  gcongr

theorem round6_min (x y : ℚ) : round6 (min x y) = min (round6 x) (round6 y) := by
  rcases le_total x y with h | h
  · rw [min_eq_left h, min_eq_left (round6_mono h)]
  · rw [min_eq_right h, min_eq_right (round6_mono h)]

theorem round6_max (x y : ℚ) : round6 (max x y) = max (round6 x) (round6 y) := by
  rcases le_total x y with h | h
  · rw [max_eq_right h, max_eq_right (round6_mono h)]
  · rw [max_eq_left h, max_eq_left (round6_mono h)]

/-! Behavior of the event handlers, shared by the claims below. -/

theorem formatBoundingBox_default (lon1 lat1 lon2 lat2 : ℚ) :
    formatBoundingBox (some (lon1, lat1)) (some (lon2, lat2)) {} =
      formatCoordinate (min lon1 lon2) ++ ',' ::
        (formatCoordinate (min lat1 lat2) ++ ',' ::
          (formatCoordinate (max lon1 lon2) ++ ',' ::
            formatCoordinate (max lat1 lat2))) := by
  simp only [formatBoundingBox]
  rw [if_true]
  exact intercalate_comma_four _ _ _ _

theorem handleMouseUp_degenerate (p : ℚ × ℚ) (s : MapState)
    (htool : s.activeTool = Tool.rectangle) (hdraw : s.isDrawing = true)
    (hstart : s.boundingBox.start = some p) :
    handleMouseUp p s =
      { s with
        boundingBox := { start := none, end_ := none }
        isDrawing := false
        activeTool := Tool.hand
        urlHash := [] } := by
  unfold handleMouseUp
  have hguard : ¬(s.activeTool ≠ Tool.rectangle ∨ s.isDrawing = false ∨
      s.boundingBox.start = none) := by
    simp [htool, hdraw, hstart]
  rw [if_neg hguard, hstart]
  dsimp only
  rw [if_pos ⟨rfl, rfl⟩]
  rfl

theorem handleMouseUp_commit (p e : ℚ × ℚ) (s : MapState)
    (htool : s.activeTool = Tool.rectangle) (hdraw : s.isDrawing = true)
    (hstart : s.boundingBox.start = some p)
    (hne : ¬(p.1 = e.1 ∧ p.2 = e.2)) :
    handleMouseUp e s =
      { s with
        boundingBox := { start := some p, end_ := some e }
        isDrawing := false
        activeTool := Tool.hand
        urlHash := formatBoundingBox (some p) (some e) {}
        fitToBoundsNextRender := true } := by
  unfold handleMouseUp
  have hguard : ¬(s.activeTool ≠ Tool.rectangle ∨ s.isDrawing = false ∨
      s.boundingBox.start = none) := by
    simp [htool, hdraw, hstart]
  rw [if_neg hguard, hstart]
  dsimp only
  rw [if_neg hne]
  rfl

/-- C1: for every pair of corner points, in the default longitude-latitude
order `formatBoundingBox` emits the normalized box
`minLon,minLat,maxLon,maxLat`, where the minima and maxima are taken over
the two dragged corners in either order; the four encoded values parse back
to the 6-decimal roundings of those minima and maxima, which satisfy
`minLon ≤ maxLon` and `minLat ≤ maxLat`. -/
theorem C1_formatBoundingBox_normalizes (lon1 lat1 lon2 lat2 : ℚ) :
    formatBoundingBox (some (lon1, lat1)) (some (lon2, lat2)) {} =
      formatCoordinate (min lon1 lon2) ++ ',' ::
        (formatCoordinate (min lat1 lat2) ++ ',' ::
          (formatCoordinate (max lon1 lon2) ++ ',' ::
            formatCoordinate (max lat1 lat2))) ∧
    jsNumber (formatCoordinate (min lon1 lon2)) = some (round6 (min lon1 lon2)) ∧
    jsNumber (formatCoordinate (max lon1 lon2)) = some (round6 (max lon1 lon2)) ∧
    round6 (min lon1 lon2) ≤ round6 (max lon1 lon2) ∧
    round6 (min lat1 lat2) ≤ round6 (max lat1 lat2) :=
  ⟨formatBoundingBox_default lon1 lat1 lon2 lat2,
    jsNumber_formatCoordinate _, jsNumber_formatCoordinate _,
    round6_mono min_le_max, round6_mono min_le_max⟩

/-- C2: formatting a complete box with `formatBoundingBox` and re-parsing
the string as four comma-separated numbers yields exactly the 6-decimal
roundings of the normalized corners, and that quadruple is already
normalized: its componentwise minima and maxima agree with the roundings of
the original normalized form. -/
theorem C2_format_parse_roundtrip (lon1 lat1 lon2 lat2 : ℚ) :
    parseHash (formatBoundingBox (some (lon1, lat1)) (some (lon2, lat2)) {}) =
      some (round6 (min lon1 lon2), round6 (min lat1 lat2),
        round6 (max lon1 lon2), round6 (max lat1 lat2)) ∧
    min (round6 (min lon1 lon2)) (round6 (max lon1 lon2)) = round6 (min lon1 lon2) ∧
    min (round6 (min lat1 lat2)) (round6 (max lat1 lat2)) = round6 (min lat1 lat2) ∧
    max (round6 (min lon1 lon2)) (round6 (max lon1 lon2)) = round6 (max lon1 lon2) ∧
    max (round6 (min lat1 lat2)) (round6 (max lat1 lat2)) = round6 (max lat1 lat2) := by
  refine ⟨?_, min_eq_left (round6_mono min_le_max),
    min_eq_left (round6_mono min_le_max),
    max_eq_right (round6_mono min_le_max),
    max_eq_right (round6_mono min_le_max)⟩
  rw [formatBoundingBox_default]
  exact parseHash_quad _ _ _ _
    (comma_not_mem_formatCoordinate _) (comma_not_mem_formatCoordinate _)
    (comma_not_mem_formatCoordinate _) (comma_not_mem_formatCoordinate _)
    _ _ _ _
    (jsNumber_formatCoordinate _) (jsNumber_formatCoordinate _)
    (jsNumber_formatCoordinate _) (jsNumber_formatCoordinate _)

/-- C3: an absent (empty) fragment, or one that does not parse as four
comma-separated numbers, leaves the whole component state unchanged; in
particular the bounding box stays as it was and the fit-to-bounds flag is
not set. -/
theorem C3_malformed_fragment_ignored (hash : List Char) (s : MapState)
    (h : hash = [] ∨ parseHash hash = none) :
    handleHashChange hash s = s := by
  unfold handleHashChange
  rcases h with h | h
  · rw [if_pos h]
  · by_cases he : hash = []
    · rw [if_pos he]
    · rw [if_neg he, h]

/-- C4: a nonempty fragment whose four comma-separated components all parse
as numbers replaces the box with the corners in fragment order, without
re-normalizing, and sets the fit-to-bounds flag; on the next render the
fit command covers the normalized bounds and the flag is cleared. -/
theorem C4_valid_fragment_replaces_box (hash : List Char) (s : MapState)
    (lon1 lat1 lon2 lat2 : ℚ) (hne : hash ≠ [])
    (hp : parseHash hash = some (lon1, lat1, lon2, lat2)) :
    handleHashChange hash s =
      { s with
        boundingBox := { start := some (lon1, lat1), end_ := some (lon2, lat2) }
        fitToBoundsNextRender := true } ∧
    (fitToBoundsIfRequested (handleHashChange hash s)).1 =
      some ((min lon1 lon2, min lat1 lat2), (max lon1 lon2, max lat1 lat2)) ∧
    (fitToBoundsIfRequested
      (handleHashChange hash s)).2.fitToBoundsNextRender = false := by
  have h1 : handleHashChange hash s =
      { s with
        boundingBox := { start := some (lon1, lat1), end_ := some (lon2, lat2) }
        fitToBoundsNextRender := true } := by
    unfold handleHashChange
    rw [if_neg hne, hp]
  refine ⟨h1, ?_, ?_⟩ <;> rw [h1] <;> rfl

/-- C5: releasing the pointer at exactly the stored start coordinate resets
the box to empty, writes an empty URL fragment, and leaves the fit-to-bounds
flag untouched (drawing stops and the tool returns to the hand). -/
theorem C5_degenerate_drag_resets (p : ℚ × ℚ) (s : MapState)
    (htool : s.activeTool = Tool.rectangle) (hdraw : s.isDrawing = true)
    (hstart : s.boundingBox.start = some p) :
    handleMouseUp p s =
      { s with
        boundingBox := { start := none, end_ := none }
        isDrawing := false
        activeTool := Tool.hand
        urlHash := [] } ∧
    (handleMouseUp p s).fitToBoundsNextRender = s.fitToBoundsNextRender := by
  have h := handleMouseUp_degenerate p s htool hdraw hstart
  exact ⟨h, by rw [h]⟩

/-- C6: releasing the pointer at a coordinate differing from the start in at
least one component keeps both corners, writes the canonical
southwest-first string to the URL fragment, and sets the one-shot
fit-to-bounds flag. -/
theorem C6_completed_drag_commits (p e : ℚ × ℚ) (s : MapState)
    (htool : s.activeTool = Tool.rectangle) (hdraw : s.isDrawing = true)
    (hstart : s.boundingBox.start = some p)
    (hne : ¬(p.1 = e.1 ∧ p.2 = e.2)) :
    handleMouseUp e s =
      { s with
        boundingBox := { start := some p, end_ := some e }
        isDrawing := false
        activeTool := Tool.hand
        urlHash := formatBoundingBox (some p) (some e) {}
        fitToBoundsNextRender := true } ∧
    (handleMouseUp e s).urlHash =
      formatCoordinate (min p.1 e.1) ++ ',' ::
        (formatCoordinate (min p.2 e.2) ++ ',' ::
          (formatCoordinate (max p.1 e.1) ++ ',' ::
            formatCoordinate (max p.2 e.2))) := by
  have h := handleMouseUp_commit p e s htool hdraw hstart hne
  refine ⟨h, ?_⟩
  rw [h]
  exact formatBoundingBox_default p.1 p.2 e.1 e.2

/-- C7 counterexample: in a reachable state that is drawing with a start set
but whose active tool is the hand (press h in the middle of a drag), a
pointer move leaves the state unchanged instead of updating the end corner
to the pointer coordinate, so the drag-move transition does not fire
whenever the controller is drawing. -/
theorem C7_counterexample_move_ignored :
    handDrawingState.isDrawing = true ∧
    handDrawingState.boundingBox.start = some (0, 0) ∧
    handleMouseMove (1, 1) handDrawingState = handDrawingState ∧
    (handleMouseMove (1, 1) handDrawingState).boundingBox.end_ ≠ some (1, 1) := by
  refine ⟨rfl, rfl, rfl, ?_⟩
  decide

/-- C7 amended: while drawing with a start set and the rectangle tool still
active, every pointer move updates the end corner to the pointer coordinate
and leaves the start corner unchanged. -/
theorem C7_amended_move_updates_end (e : ℚ × ℚ) (s : MapState)
    (htool : s.activeTool = Tool.rectangle) (hdraw : s.isDrawing = true)
    (hstart : s.boundingBox.start ≠ none) :
    handleMouseMove e s =
      { s with
        boundingBox := { start := s.boundingBox.start, end_ := some e } } := by
  unfold handleMouseMove
  have hguard : ¬(s.activeTool ≠ Tool.rectangle ∨ s.isDrawing = false ∨
      s.boundingBox.start = none) := by
    simp [htool, hdraw, hstart]
  rw [if_neg hguard]

/-- C8: whenever the end-drag transition fires (rectangle tool, drawing, a
start recorded), the resulting state has the hand tool active and drawing
stopped, for the degenerate and the committing outcome alike. -/
theorem C8_drag_end_restores_hand (e : ℚ × ℚ) (s : MapState)
    (htool : s.activeTool = Tool.rectangle) (hdraw : s.isDrawing = true)
    (hstart : s.boundingBox.start ≠ none) :
    (handleMouseUp e s).activeTool = Tool.hand ∧
    (handleMouseUp e s).isDrawing = false := by
  obtain ⟨p, hp⟩ := Option.ne_none_iff_exists'.mp hstart
  by_cases hdeg : p.1 = e.1 ∧ p.2 = e.2
  · have hpe : p = e := Prod.ext hdeg.1 hdeg.2
    rw [← hpe, handleMouseUp_degenerate p s htool hdraw hp]
    exact ⟨rfl, rfl⟩
  · rw [handleMouseUp_commit p e s htool hdraw hp hdeg]
    exact ⟨rfl, rfl⟩

/-- C9: with both corners present the overlay geometry is the closed
quadrilateral built from the two raw corners in the order
start, (end.lon, start.lat), end, (start.lon, end.lat), start; when either
corner is missing the overlay data is an empty feature collection. -/
theorem C9_overlay_quadrilateral (lon1 lat1 lon2 lat2 : ℚ) (box : BoundingBox) :
    renderBoundingBox { start := some (lon1, lat1), end_ := some (lon2, lat2) } =
      OverlayData.polygon
        [(lon1, lat1), (lon2, lat1), (lon2, lat2), (lon1, lat2), (lon1, lat1)] ∧
    (box.start = none ∨ box.end_ = none →
      renderBoundingBox box = OverlayData.emptyCollection) := by
  refine ⟨rfl, ?_⟩
  intro h
  obtain ⟨bs, be⟩ := box
  rcases h with h | h
  · rcases h
    rfl
  · rcases h
    cases bs with
    | none => rfl
    | some pr => rfl

/-- C10: the fragment parser converts each comma-separated part with the
JavaScript `Number`, under which the empty string is 0; hence a fragment of
three bare commas is accepted as the box from (0,0) to (0,0) with a fit
requested, and any parts beyond the first four, whatever they contain, are
ignored. -/
theorem C10_empty_parts_parse_as_zero :
    jsNumber [] = some 0 ∧
    (∀ s : MapState, handleHashChange [',', ',', ','] s =
      { s with
        boundingBox := { start := some (0, 0), end_ := some (0, 0) }
        fitToBoundsNextRender := true }) ∧
    (∀ (rest : List Char) (s : MapState),
      handleHashChange ('1' :: ',' :: '2' :: ',' :: '3' :: ',' :: '4' :: ',' :: rest) s =
        { s with
          boundingBox := { start := some (1, 2), end_ := some (3, 4) }
          fitToBoundsNextRender := true }) := by
  refine ⟨rfl, ?_, ?_⟩
  · intro s
    unfold handleHashChange
    rw [if_neg (by decide), show parseHash [',', ',', ','] = some (0, 0, 0, 0) from rfl]
  · intro rest s
    unfold handleHashChange
    rw [if_neg (List.cons_ne_nil _ _)]
    have hp : parseHash ('1' :: ',' :: '2' :: ',' :: '3' :: ',' :: '4' :: ',' :: rest) =
        some (1, 2, 3, 4) := by
      unfold parseHash
      have h1 : splitComma ('1' :: ',' :: '2' :: ',' :: '3' :: ',' :: '4' :: ',' :: rest) =
          ['1'] :: ['2'] :: ['3'] :: ['4'] :: splitComma rest := by
        rw [show ('1' :: ',' :: '2' :: ',' :: '3' :: ',' :: '4' :: ',' :: rest) =
          ['1'] ++ ',' :: (['2'] ++ ',' :: (['3'] ++ ',' :: (['4'] ++ ',' :: rest))) from rfl]
        rw [splitComma_append _ _ (by decide), splitComma_append _ _ (by decide),
          splitComma_append _ _ (by decide), splitComma_append _ _ (by decide)]
      rw [h1]
      have j1 : jsNumber ['1'] = some 1 := by decide
      have j2 : jsNumber ['2'] = some 2 := by decide
      have j3 : jsNumber ['3'] = some 3 := by decide
      have j4 : jsNumber ['4'] = some 4 := by decide
      simp [j1, j2, j3, j4]
    rw [hp]

section

attribute [local semireducible] Rat.add Rat.mul Rat.sub Rat.inv

/-- Witness for C3 at the malformed fragment `abc,1,2,3` and the fresh
state: the fragment fails to parse and the state is untouched. -/
theorem C3_witness :
    parseHash malformedHash = none ∧
    handleHashChange malformedHash sampleState = sampleState := by
  have hp : parseHash malformedHash = none := by decide
  exact ⟨hp, C3_malformed_fragment_ignored malformedHash sampleState (Or.inr hp)⟩

/-- Witness for C4 at the fragment `-10,20,-5,25`: the box corners are taken
in fragment order and the next render fits longitude -10 to -5 and latitude
20 to 25. -/
theorem C4_witness :
    handleHashChange exampleHash sampleState =
      { sampleState with
        boundingBox := { start := some (-10, 20), end_ := some (-5, 25) }
        fitToBoundsNextRender := true } ∧
    (fitToBoundsIfRequested (handleHashChange exampleHash sampleState)).1 =
      some ((-10, 20), (-5, 25)) ∧
    (fitToBoundsIfRequested
      (handleHashChange exampleHash sampleState)).2.fitToBoundsNextRender = false := by
  have hp : parseHash exampleHash = some (-10, 20, -5, 25) := by decide
  obtain ⟨h1, h2, h3⟩ := C4_valid_fragment_replaces_box exampleHash sampleState
    (-10) 20 (-5) 25 (by decide) hp
  refine ⟨h1, ?_, h3⟩
  rw [h2]
  decide

/-- Witness for C5: a drag that started at (1, 2) and is released at (1, 2)
resets the box, clears the fragment and leaves the fit flag false. -/
theorem C5_witness :
    handleMouseUp (1, 2) drawState =
      { drawState with
        boundingBox := { start := none, end_ := none }
        isDrawing := false
        activeTool := Tool.hand
        urlHash := [] } ∧
    (handleMouseUp (1, 2) drawState).fitToBoundsNextRender = false := by
  obtain ⟨h1, h2⟩ := C5_degenerate_drag_resets (1, 2) drawState rfl rfl rfl
  exact ⟨h1, h2.trans rfl⟩

/-- Witness for C6 at the drag from (151, -33) to (150, -34): the written
fragment is `150,-34,151,-33`, the fit flag is set and both corners are
kept. -/
theorem C6_witness :
    (handleMouseUp (150, -34) sydneyDragState).urlHash =
      ['1', '5', '0', ',', '-', '3', '4', ',', '1', '5', '1', ',', '-', '3', '3'] ∧
    (handleMouseUp (150, -34) sydneyDragState).fitToBoundsNextRender = true ∧
    (handleMouseUp (150, -34) sydneyDragState).boundingBox =
      { start := some (151, -33), end_ := some (150, -34) } := by
  obtain ⟨h1, h2⟩ := C6_completed_drag_commits (151, -33) (150, -34)
    sydneyDragState rfl rfl rfl (by decide)
  refine ⟨?_, ?_, ?_⟩
  · rw [h1]
    decide
  · rw [h1]
  · rw [h1]

/-- Witness for the amended C7: with the rectangle tool still active, a move
to (1, 1) while drawing from (0, 0) sets the end corner to (1, 1). -/
theorem C7_witness :
    handleMouseMove (1, 1) rectDrawingState =
      { rectDrawingState with
        boundingBox := { start := some (0, 0), end_ := some (1, 1) } } := by
  have h := C7_amended_move_updates_end (1, 1) rectDrawingState rfl rfl (by decide)
  rw [h]
  rfl

/-- Witness for C8: after the degenerate release at (1, 2) of the drag that
started there, the tool is the hand and drawing has stopped. -/
theorem C8_witness :
    (handleMouseUp (1, 2) drawState).activeTool = Tool.hand ∧
    (handleMouseUp (1, 2) drawState).isDrawing = false :=
  C8_drag_end_restores_hand (1, 2) drawState rfl rfl (by decide)

/-- Witness for C9: the box from (1, 2) to (3, 4) renders as the closed
quadrilateral through (1,2), (3,2), (3,4), (1,4), and a box without a start
renders as the empty collection. -/
theorem C9_witness :
    renderBoundingBox
        { start := some ((1 : ℚ), (2 : ℚ)), end_ := some ((3 : ℚ), (4 : ℚ)) } =
      OverlayData.polygon [(1, 2), (3, 2), (3, 4), (1, 4), (1, 2)] ∧
    renderBoundingBox { start := none, end_ := some ((3 : ℚ), (4 : ℚ)) } =
      OverlayData.emptyCollection :=
  ⟨(C9_overlay_quadrilateral 1 2 3 4 ⟨none, some (3, 4)⟩).1,
    (C9_overlay_quadrilateral 1 2 3 4 ⟨none, some (3, 4)⟩).2 (Or.inl rfl)⟩

end
